import Mathlib

/-!
Verification development for the EleutherAI pythia repository
(`memorization/eval_memorization.py` and
`conditional-training/convert_dataset_labeled_json.py`).

The Python code is shallowly embedded: pure computations become Lean
functions, the iterator of `ConcatLabeledTokensDataset` becomes an explicit
buffer-state machine, and the prefetch producer becomes a function from the
list of assigned indices to the list of queued items.  Python integers are
`Nat`/`Int` (Python `//` on non-negative operands is `Nat` division); scores
and probabilities, compared only with `<`, are modelled as `ℚ` (IEEE doubles
embed order-faithfully into `ℚ`).
-/

namespace Pythia

/-! ## Range partitioner

Embeds `eval_memorization.py`, `main`, lines 155-160:

  num_sequences_per_proc = total_num_sequences//NUM_PROCS
  start_idx = num_sequences_per_proc*RANK
  end_idx = num_sequences_per_proc*(RANK+1) - 1
  if RANK == (NUM_PROCS -1):
      end_idx = total_num_sequences - 1

`total`, `numWorkers`, `rank` are non-negative, so Python floor division is
`Nat` division; the endpoints are `ℤ` because `end_idx` can be `-1` when
`num_sequences_per_proc = 0`. -/

def partitionRange (total numWorkers rank : ℕ) : ℤ × ℤ :=
  let perWorker : ℕ := total / numWorkers
  let start : ℤ := (perWorker : ℤ) * rank
  let stop : ℤ :=
    if rank = numWorkers - 1 then (total : ℤ) - 1
    else (perWorker : ℤ) * (rank + 1) - 1
  (start, stop)

/-- The set of sequence indices assigned to `rank`: the inclusive integer
range `[start_idx, end_idx]` that the worker iterates over. -/
def assignedIdxs (total numWorkers rank : ℕ) : Finset ℤ :=
  Finset.Icc (partitionRange total numWorkers rank).1
    (partitionRange total numWorkers rank).2

lemma partitionRange_fst (total n r : ℕ) :
    (partitionRange total n r).1 = ((total / n : ℕ) : ℤ) * r := rfl

lemma partitionRange_snd_last (total n : ℕ) :
    (partitionRange total n (n - 1)).2 = (total : ℤ) - 1 := by
  simp [partitionRange]

lemma partitionRange_snd_of_ne (total n r : ℕ) (h : r ≠ n - 1) :
    (partitionRange total n r).2 = ((total / n : ℕ) : ℤ) * (r + 1) - 1 := by
  simp [partitionRange, h]

lemma mem_assignedIdxs (total n r : ℕ) (i : ℤ) :
    i ∈ assignedIdxs total n r ↔
      (partitionRange total n r).1 ≤ i ∧ i ≤ (partitionRange total n r).2 :=
  Finset.mem_Icc

/-- Ranges are ordered: a lower rank's end index is strictly below a higher
rank's start index. -/
lemma stop_lt_start (total n : ℕ) {r s : ℕ} (hs : s < n) (hrs : r < s) :
    (partitionRange total n r).2 < (partitionRange total n s).1 := by
  have hr : r ≠ n - 1 := by omega
  rw [partitionRange_snd_of_ne total n r hr, partitionRange_fst]
  have h : (total / n) * (r + 1) ≤ (total / n) * s :=
    Nat.mul_le_mul_left _ (by omega)
  have h' : ((total / n : ℕ) : ℤ) * ((r : ℤ) + 1) ≤ ((total / n : ℕ) : ℤ) * s := by
    exact_mod_cast h
  linarith

lemma assigned_disjoint (total n : ℕ) {r s : ℕ} (hr : r < n) (hs : s < n)
    (hne : r ≠ s) :
    Disjoint (assignedIdxs total n r) (assignedIdxs total n s) := by
  rcases Nat.lt_or_ge r s with hlt | hge
  · rw [Finset.disjoint_left]
    intro i hi hj
    rw [mem_assignedIdxs] at hi hj
    have := stop_lt_start total n hs hlt
    linarith [hi.2, hj.1]
  · have hlt : s < r := by omega
    rw [Finset.disjoint_left]
    intro i hi hj
    rw [mem_assignedIdxs] at hi hj
    have := stop_lt_start total n hr hlt
    linarith [hj.2, hi.1]

lemma assigned_subset (total n : ℕ) {r : ℕ} (hr : r < n) :
    assignedIdxs total n r ⊆ Finset.Icc 0 ((total : ℤ) - 1) := by
  intro i hi
  rw [mem_assignedIdxs] at hi
  rw [Finset.mem_Icc]
  constructor
  · have h0 : (0 : ℤ) ≤ (partitionRange total n r).1 := by
      rw [partitionRange_fst]; positivity
    linarith [hi.1]
  · by_cases hlast : r = n - 1
    · rw [hlast, partitionRange_snd_last] at hi
      exact hi.2
    · rw [partitionRange_snd_of_ne total n r hlast] at hi
      have h1 : (total / n) * (r + 1) ≤ (total / n) * n :=
        Nat.mul_le_mul_left _ (by omega)
      have h2 : (total / n) * n ≤ total := by
        calc (total / n) * n = total / n * n := rfl
          _ ≤ total := Nat.div_mul_le_self total n
      have h3 : ((total / n : ℕ) : ℤ) * ((r : ℤ) + 1) ≤ (total : ℤ) := by
        exact_mod_cast le_trans h1 h2
      linarith [hi.2]

/-- Every index in `[0, total-1]` falls in some rank's range (for any
`numWorkers > 0`, with or without `numWorkers ≤ total`). -/
lemma exists_assigned (total n : ℕ) (hn : 0 < n) (i : ℤ)
    (hi : i ∈ Finset.Icc 0 ((total : ℤ) - 1)) :
    ∃ r : ℕ, r < n ∧ i ∈ assignedIdxs total n r := by
  rw [Finset.mem_Icc] at hi
  obtain ⟨hi0, hi1⟩ := hi
  obtain ⟨m, rfl⟩ : ∃ m : ℕ, i = (m : ℤ) := ⟨i.toNat, (Int.toNat_of_nonneg hi0).symm⟩
  have hdm : (total / n) * (m / (total / n)) ≤ m := by
    calc (total / n) * (m / (total / n)) = m / (total / n) * (total / n) := by ring
      _ ≤ m := Nat.div_mul_le_self m _
  by_cases hsm : total / n = 0 ∨ n - 1 ≤ m / (total / n)
  · -- the last rank absorbs everything from per*(n-1) upward
    refine ⟨n - 1, by omega, ?_⟩
    rw [mem_assignedIdxs, partitionRange_fst, partitionRange_snd_last]
    refine ⟨?_, by linarith⟩
    rcases hsm with h0 | hbig
    · rw [h0]
      simp
    · have h1 : (total / n) * (n - 1) ≤ (total / n) * (m / (total / n)) :=
        Nat.mul_le_mul_left _ hbig
      have h3 : (total / n) * (n - 1) ≤ m := le_trans h1 hdm
      exact_mod_cast h3
  · push_neg at hsm
    obtain ⟨hper0, hsmall⟩ := hsm
    refine ⟨m / (total / n), lt_of_lt_of_le hsmall (Nat.sub_le n 1), ?_⟩
    have hne : m / (total / n) ≠ n - 1 := Nat.ne_of_lt hsmall
    rw [mem_assignedIdxs, partitionRange_fst, partitionRange_snd_of_ne total n _ hne]
    have h3 : m < (total / n) * (m / (total / n) + 1) := by
      have hmod : m % (total / n) < total / n :=
        Nat.mod_lt m (Nat.pos_of_ne_zero hper0)
      have hdam : (total / n) * (m / (total / n)) + m % (total / n) = m :=
        Nat.div_add_mod m _
      have hexp : (total / n) * (m / (total / n) + 1)
          = (total / n) * (m / (total / n)) + (total / n) := by ring
      omega
    constructor
    · exact_mod_cast hdm
    · have h3' : (m : ℤ) < ((total / n : ℕ) : ℤ) * (((m / (total / n) : ℕ) : ℤ) + 1) := by
        exact_mod_cast h3
      linarith

lemma existsUnique_assigned (total n : ℕ) (hn : 0 < n) (i : ℤ)
    (hi : i ∈ Finset.Icc 0 ((total : ℤ) - 1)) :
    ∃! r : ℕ, r < n ∧ i ∈ assignedIdxs total n r := by
  obtain ⟨r, hr, hmem⟩ := exists_assigned total n hn i hi
  refine ⟨r, ⟨hr, hmem⟩, ?_⟩
  intro s ⟨hs, hmem'⟩
  by_contra hne
  exact (Finset.disjoint_left.mp
    (assigned_disjoint total n hs hr (fun h => hne h)) hmem') hmem

lemma biUnion_assigned (total n : ℕ) (hn : 0 < n) :
    (Finset.range n).biUnion (assignedIdxs total n) =
      Finset.Icc 0 ((total : ℤ) - 1) := by
  apply Finset.Subset.antisymm
  · intro i hi
    rw [Finset.mem_biUnion] at hi
    obtain ⟨r, hr, hmem⟩ := hi
    exact assigned_subset total n (Finset.mem_range.mp hr) hmem
  · intro i hi
    obtain ⟨r, hr, hmem⟩ := exists_assigned total n hn i hi
    exact Finset.mem_biUnion.mpr ⟨r, Finset.mem_range.mpr hr, hmem⟩

/-- C1: with `num_workers ≤ total` the partitioner assigns
`start = (total // num_workers) * rank` and
`end = (total // num_workers) * (rank+1) - 1` (last rank: `end = total - 1`);
the ranges are pairwise disjoint, their union is exactly `[0, total-1]` with
each index assigned to exactly one rank, and every rank but the last gets
exactly `total // num_workers` indices, so only the last range's size may
differ. -/
theorem C1_range_partitioner (total n : ℕ) (hn : 0 < n) (hle : n ≤ total) :
    (∀ r : ℕ, r < n →
      partitionRange total n r =
        if r = n - 1 then (((total / n : ℕ) : ℤ) * r, (total : ℤ) - 1)
        else (((total / n : ℕ) : ℤ) * r,
              ((total / n : ℕ) : ℤ) * (r + 1) - 1)) ∧
    (∀ r s : ℕ, r < n → s < n → r ≠ s →
      Disjoint (assignedIdxs total n r) (assignedIdxs total n s)) ∧
    (Finset.range n).biUnion (assignedIdxs total n) =
      Finset.Icc 0 ((total : ℤ) - 1) ∧
    (∀ i : ℤ, i ∈ Finset.Icc 0 ((total : ℤ) - 1) →
      ∃! r : ℕ, r < n ∧ i ∈ assignedIdxs total n r) ∧
    (∀ r : ℕ, r < n - 1 → (assignedIdxs total n r).card = total / n) :=
  by
  refine ⟨?_, ?_, biUnion_assigned total n hn, existsUnique_assigned total n hn, ?_⟩
  · intro r _
    by_cases h : r = n - 1
    · simp [partitionRange, h]
    · simp [partitionRange, h]
  · intro r s hr hs hne
    exact assigned_disjoint total n hr hs hne
  · intro r hr
    have hne : r ≠ n - 1 := by omega
    unfold assignedIdxs
    rw [partitionRange_fst, partitionRange_snd_of_ne total n r hne, Int.card_Icc]
    have : (((total / n : ℕ) : ℤ) * (↑r + 1) - 1 + 1 - ((total / n : ℕ) : ℤ) * ↑r)
        = ((total / n : ℕ) : ℤ) := by ring
    rw [this]
    exact Int.toNat_natCast _

/-- C1 witness: `total = 10`, `num_workers = 3` gives ranges
`[0,2], [3,5], [6,9]`; index `7` is assigned exactly once (to rank 2) and
rank 0 holds exactly `10 // 3 = 3` indices. -/
theorem C1_range_partitioner_witness :
    partitionRange 10 3 2 = (6, 9) ∧ (assignedIdxs 10 3 0).card = 10 / 3 := by
  have h := C1_range_partitioner 10 3 (by norm_num) (by norm_num)
  refine ⟨?_, h.2.2.2.2 0 (by norm_num)⟩
  have := h.1 2 (by norm_num)
  simpa using this

/-- C10: when `num_workers > total` (so `total // num_workers = 0`) every
rank below the last is assigned the empty range `(0, -1)`, the last rank is
assigned `[0, total-1]`, and disjointness plus exactly-once coverage of
`[0, total-1]` still hold outside the spec's stated precondition. -/
theorem C10_partitioner_more_workers_than_total (total n : ℕ) (hn : 0 < n)
    (hgt : total < n) :
    (∀ r : ℕ, r < n - 1 →
      partitionRange total n r = (0, -1) ∧ assignedIdxs total n r = ∅) ∧
    partitionRange total n (n - 1) = (0, (total : ℤ) - 1) ∧
    (∀ r s : ℕ, r < n → s < n → r ≠ s →
      Disjoint (assignedIdxs total n r) (assignedIdxs total n s)) ∧
    (Finset.range n).biUnion (assignedIdxs total n) =
      Finset.Icc 0 ((total : ℤ) - 1) ∧
    (∀ i : ℤ, i ∈ Finset.Icc 0 ((total : ℤ) - 1) →
      ∃! r : ℕ, r < n ∧ i ∈ assignedIdxs total n r) := by
  have hper : total / n = 0 := Nat.div_eq_of_lt hgt
  refine ⟨?_, ?_, ?_, biUnion_assigned total n hn, existsUnique_assigned total n hn⟩
  · intro r hr
    have hne : r ≠ n - 1 := by omega
    constructor
    · simp [partitionRange, hne, hper]
    · unfold assignedIdxs
      rw [partitionRange_fst, partitionRange_snd_of_ne total n r hne, hper]
      simp
  · simp [partitionRange, hper]
  · intro r s hr hs hne
    exact assigned_disjoint total n hr hs hne

/-- C10 witness: `total = 2`, `num_workers = 5`: rank 1 gets the empty range
`(0,-1)` and the last rank (4) gets `[0,1]`. -/
theorem C10_partitioner_witness :
    partitionRange 2 5 1 = (0, -1) ∧ partitionRange 2 5 4 = (0, 1) := by
  have h := C10_partitioner_more_workers_than_total 2 5 (by norm_num) (by norm_num)
  refine ⟨(h.1 1 (by norm_num)).1, ?_⟩
  have := h.2.1
  norm_num at this
  exact this

/-! ## Prefetch producer

Embeds the enqueueing loop of `generate_dataset`
(`eval_memorization.py`, lines 72-92). -/

/-- An item put on the multiprocessing queue by `generate_dataset`: either a
batch `(start index of batch, context tokens, true continuation)` or the
end-of-stream sentinel `(None, None, None)`. -/
inductive QItem where
  | batch (startIdx : ℕ) (contextTokens trueContinuation : List (List ℕ)) : QItem
  | sentinel : QItem
deriving DecidableEq, Repr

/-- The enqueueing loop of `generate_dataset`, recursing over the remaining
sequence indices.  `lastIdx` mirrors the loop variable `i` (initialised to 0
before the loop), `ctxs` / `conts` the accumulators `context_tokens` /
`true_continuation`.  The batch start index `i - len(context_tokens) + 1` is
written `i + 1 - ctxs.length`, equal on `ℕ` because the accumulator never
outruns the index.  The back-pressure sleep loop does not change the queue
contents and is not modelled. -/
def produceAux (batchSize : ℕ) (ctx cont : ℕ → List ℕ) :
    List ℕ → ℕ → List (List ℕ) → List (List ℕ) → List QItem
  | [], lastIdx, ctxs, conts =>
    (if 0 < ctxs.length then
      [QItem.batch (lastIdx + 1 - ctxs.length) ctxs conts]
    else []) ++ [QItem.sentinel]
  | i :: rest, _, ctxs, conts =>
    let ctxs' := ctxs ++ [ctx i]
    let conts' := conts ++ [cont i]
    if ctxs'.length = batchSize then
      QItem.batch (i + 1 - ctxs'.length) ctxs' conts' ::
        produceAux batchSize ctx cont rest i [] []
    else
      produceAux batchSize ctx cont rest i ctxs' conts'

/-- The queue output of `generate_dataset` for the inclusive index range
`start_seq_idx .. end_seq_idx`: each sequence contributes its first 32
tokens as context and tokens 32..63 as true continuation. -/
def generate_dataset (batchSize startIdx endIdx : ℕ) (data : ℕ → List ℕ) :
    List QItem :=
  produceAux batchSize (fun i => (data i).take 32)
    (fun i => ((data i).drop 32).take 32)
    (List.range' startIdx (endIdx + 1 - startIdx)) 0 [] []

/-- Number of (context, continuation) pairs across all enqueued batches. -/
def pairCount : List QItem → ℕ
  | [] => 0
  | QItem.batch _ ctxs _ :: rest => ctxs.length + pairCount rest
  | QItem.sentinel :: rest => pairCount rest

/-- The sizes of the enqueued batches, in queue order. -/
def batchSizes : List QItem → List ℕ
  | [] => []
  | QItem.batch _ ctxs _ :: rest => ctxs.length :: batchSizes rest
  | QItem.sentinel :: rest => batchSizes rest

lemma pairCount_produceAux (bs : ℕ) (ctx cont : ℕ → List ℕ) (idxs : List ℕ) :
    ∀ (lastIdx : ℕ) (ctxs conts : List (List ℕ)),
      pairCount (produceAux bs ctx cont idxs lastIdx ctxs conts)
        = ctxs.length + idxs.length := by
  induction idxs with
  | nil =>
    intro lastIdx ctxs conts
    by_cases h : 0 < ctxs.length
    · simp [produceAux, h, pairCount]
    · simp only [produceAux, if_neg h]
      simp only [List.nil_append, pairCount, List.length_nil]
      omega
  | cons i rest ih =>
    intro lastIdx ctxs conts
    simp only [produceAux]
    by_cases h : (ctxs ++ [ctx i]).length = bs
    · rw [if_pos h]
      simp only [pairCount, ih]
      simp only [List.length_append, List.length_cons, List.length_nil]
      omega
    · rw [if_neg h, ih]
      simp only [List.length_append, List.length_cons, List.length_nil]
      omega

lemma produceAux_sentinel (bs : ℕ) (ctx cont : ℕ → List ℕ) (idxs : List ℕ) :
    ∀ (lastIdx : ℕ) (ctxs conts : List (List ℕ)),
      ∃ front : List QItem,
        produceAux bs ctx cont idxs lastIdx ctxs conts
          = front ++ [QItem.sentinel] ∧ ∀ x ∈ front, x ≠ QItem.sentinel := by
  induction idxs with
  | nil =>
    intro lastIdx ctxs conts
    by_cases h : 0 < ctxs.length
    · refine ⟨[QItem.batch (lastIdx + 1 - ctxs.length) ctxs conts],
        by simp [produceAux, h], ?_⟩
      intro x hx
      simp only [List.mem_singleton] at hx
      simp [hx]
    · exact ⟨[], by simp [produceAux, h], by simp⟩
  | cons i rest ih =>
    intro lastIdx ctxs conts
    simp only [produceAux]
    by_cases h : (ctxs ++ [ctx i]).length = bs
    · obtain ⟨front, heq, hmem⟩ := ih i [] []
      rw [if_pos h]
      refine ⟨QItem.batch (i + 1 - (ctxs ++ [ctx i]).length)
        (ctxs ++ [ctx i]) (conts ++ [cont i]) :: front, by rw [heq]; rfl, ?_⟩
      intro x hx
      rcases List.mem_cons.mp hx with hx | hx
      · simp [hx]
      · exact hmem x hx
    · rw [if_neg h]
      exact ih i (ctxs ++ [ctx i]) (conts ++ [cont i])

lemma batchSizes_produceAux (bs : ℕ) (hbs : 0 < bs) (ctx cont : ℕ → List ℕ)
    (idxs : List ℕ) :
    ∀ (lastIdx : ℕ) (ctxs conts : List (List ℕ)), ctxs.length < bs →
      batchSizes (produceAux bs ctx cont idxs lastIdx ctxs conts)
        = List.replicate ((ctxs.length + idxs.length) / bs) bs
          ++ (if (ctxs.length + idxs.length) % bs = 0 then []
              else [(ctxs.length + idxs.length) % bs]) := by
  induction idxs with
  | nil =>
    intro lastIdx ctxs conts hc
    simp only [produceAux, List.length_nil, Nat.add_zero]
    rw [Nat.div_eq_of_lt hc, Nat.mod_eq_of_lt hc]
    by_cases h : 0 < ctxs.length
    · rw [if_pos h, if_neg (by omega)]
      simp [batchSizes]
    · rw [if_neg h, if_pos (by omega)]
      simp [batchSizes]
  | cons i rest ih =>
    intro lastIdx ctxs conts hc
    simp only [produceAux, List.length_cons]
    by_cases h : (ctxs ++ [ctx i]).length = bs
    · rw [if_pos h]
      have hc1 : ctxs.length + 1 = bs := by
        simpa using h
      simp only [batchSizes, h]
      rw [ih i [] [] (by simpa using hbs)]
      simp only [List.length_nil, Nat.zero_add]
      have e1 : ctxs.length + (rest.length + 1) = rest.length + bs := by omega
      rw [e1, Nat.add_div_right _ hbs, Nat.add_mod_right, List.replicate_succ,
        List.cons_append]
    · rw [if_neg h]
      have hc1 : (ctxs ++ [ctx i]).length < bs := by
        simp only [List.length_append, List.length_cons, List.length_nil] at h ⊢
        omega
      rw [ih i (ctxs ++ [ctx i]) (conts ++ [cont i]) hc1]
      simp only [List.length_append, List.length_cons, List.length_nil]
      have e1 : ctxs.length + (0 + 1) + rest.length
          = ctxs.length + (rest.length + 1) := by omega
      rw [e1]

/-- C5: for `start_idx ≤ end_idx` (and a positive batch size) the producer
enqueues exactly `end_idx - start_idx + 1` (context, continuation) pairs
across all batches; exactly one end-of-stream sentinel is enqueued, always
as the last item; and when the range size is not a multiple of `batch_size`
the final batch holds the remainder (size `< batch_size`) and is still
emitted. -/
theorem C5_prefetch_producer (bs startIdx endIdx : ℕ) (data : ℕ → List ℕ)
    (hbs : 0 < bs) (hle : startIdx ≤ endIdx) :
    pairCount (generate_dataset bs startIdx endIdx data)
      = endIdx - startIdx + 1 ∧
    (∃ front : List QItem,
      generate_dataset bs startIdx endIdx data = front ++ [QItem.sentinel] ∧
        ∀ x ∈ front, x ≠ QItem.sentinel) ∧
    ((endIdx - startIdx + 1) % bs ≠ 0 →
      batchSizes (generate_dataset bs startIdx endIdx data)
        = List.replicate ((endIdx - startIdx + 1) / bs) bs
          ++ [(endIdx - startIdx + 1) % bs] ∧
        (endIdx - startIdx + 1) % bs < bs) := by
  have hlen : (List.range' startIdx (endIdx + 1 - startIdx)).length
      = endIdx - startIdx + 1 := by
    rw [List.length_range']
    omega
  refine ⟨?_, ?_, ?_⟩
  · rw [generate_dataset, pairCount_produceAux, hlen]
    simp
  · exact produceAux_sentinel bs _ _ _ 0 [] []
  · intro hrem
    constructor
    · rw [generate_dataset, batchSizes_produceAux bs hbs _ _ _ 0 [] []
        (by simpa using hbs), hlen]
      simp only [List.length_nil, Nat.zero_add]
      rw [if_neg hrem]
    · exact Nat.mod_lt _ hbs

/-- C5 witness: range `[3, 9]` (7 sequences) with batch size 3 yields
batches of sizes `3, 3, 1`; the pair count is 7 and the queue ends with a
single sentinel. -/
theorem C5_prefetch_producer_witness :
    pairCount (generate_dataset 3 3 9 (fun _ => [])) = 9 - 3 + 1 ∧
    batchSizes (generate_dataset 3 3 9 (fun _ => []))
      = List.replicate ((9 - 3 + 1) / 3) 3 ++ [(9 - 3 + 1) % 3] := by
  have h := C5_prefetch_producer 3 3 9 (fun _ => []) (by norm_num) (by norm_num)
  exact ⟨h.1, (h.2.2 (by norm_num)).1⟩

/-! ## Scorer loop

Embeds `score` (`eval_memorization.py`, lines 111-119) and the
record-appending loop of `main` (lines 184-196). -/

/-- The accuracy `score` computes for one sequence: the mean of the
elementwise equality between `true_continuation` and
`generations[:, 32:64]`.  On the source's `(batch, 32)` / `(batch, 64)`
tensors the compared vectors have length 32, so the mean is the matching
count divided by the compared length. -/
def continuationAccuracy (trueContinuation generation : List ℕ) : ℚ :=
  let cmp := trueContinuation.zip ((generation.drop 32).take 32)
  ((cmp.countP (fun p => p.1 = p.2) : ℕ) : ℚ) / (cmp.length : ℚ)

/-- `score` on one dequeued batch, given the black-box greedy generations
(one 64-token generation per sequence): the per-sequence accuracies in
batch order. -/
def scoreBatch (trueContinuations generations : List (List ℕ)) : List ℚ :=
  List.zipWith continuationAccuracy trueContinuations generations

/-- The accumulation loop of `main`:
`for acc in accuracies: memorization_evals.append(...); idx += 1`, with
records modelled as `(global_index, accuracy)` pairs rather than the
source's `f"idx,acc"` strings.  Returns the extended log and the final
`idx`. -/
def appendEvals (evals : List (ℕ × ℚ)) (idx : ℕ) (accs : List ℚ) :
    List (ℕ × ℚ) × ℕ :=
  accs.foldl (fun p acc => (p.1 ++ [(p.2, acc)], p.2 + 1)) (evals, idx)

/-- The accuracy as the spec words it: the fraction of the 32 continuation
positions at which the token generated at position `32 + i` of the 64-token
generation exactly equals the true continuation token at position `i`. -/
def specContinuationAccuracy (trueContinuation generation : List ℕ) : ℚ :=
  (((List.range 32).countP
      (fun i => trueContinuation.getD i 0 = generation.getD (32 + i) 0) : ℕ) : ℚ)
    / 32

lemma countP_zip_eq (a b : List ℕ) (h : a.length = b.length) :
    (a.zip b).countP (fun p => p.1 = p.2)
      = (List.range a.length).countP (fun i => a.getD i 0 = b.getD i 0) := by
  induction a generalizing b with
  | nil => simp
  | cons x as ih =>
    cases b with
    | nil => simp at h
    | cons y bs =>
      simp only [List.zip_cons_cons, List.countP_cons, List.length_cons,
        List.range_succ_eq_map, List.countP_map]
      rw [ih bs (by simpa using h)]
      have hcongr : (List.range as.length).countP
            ((fun i => decide ((x :: as).getD i 0 = (y :: bs).getD i 0))
              ∘ Nat.succ)
          = (List.range as.length).countP
            (fun i => decide (as.getD i 0 = bs.getD i 0)) := by
        apply List.countP_congr
        intro i _
        simp [List.getD_cons_succ]
      simp only [Function.comp] at hcongr ⊢
      rw [hcongr]
      simp [List.getD_cons_zero]

lemma scoreBatch_getD (tc gens : List (List ℕ)) (j : ℕ)
    (hj : j < tc.length) (heq : tc.length = gens.length) :
    (scoreBatch tc gens).getD j 0
      = continuationAccuracy (tc.getD j []) (gens.getD j []) := by
  have hj2 : j < gens.length := heq ▸ hj
  have hjz : j < (scoreBatch tc gens).length := by
    simp only [scoreBatch, List.length_zipWith]
    omega
  rw [List.getD_eq_getElem _ _ hjz, List.getD_eq_getElem _ _ hj,
    List.getD_eq_getElem _ _ hj2]
  simp [scoreBatch]

lemma continuationAccuracy_eq_spec (t g : List ℕ)
    (ht : t.length = 32) (hg : g.length = 64) :
    continuationAccuracy t g = specContinuationAccuracy t g := by
  have hdrop : (g.drop 32).length = 32 := by
    rw [List.length_drop, hg]
  have hs : ((g.drop 32).take 32).length = 32 := by
    rw [List.length_take, hdrop]
    simp
  have hzlen : (t.zip ((g.drop 32).take 32)).length = 32 := by
    rw [List.length_zip, ht, hs]
    simp
  unfold continuationAccuracy specContinuationAccuracy
  simp only []
  rw [hzlen, countP_zip_eq t _ (by rw [ht, hs]), ht]
  congr 2
  apply List.countP_congr
  intro i hi
  have hi32 : i < 32 := by simpa using hi
  have h1 : ((g.drop 32).take 32).getD i 0 = g.getD (32 + i) 0 := by
    have hia : i < ((g.drop 32).take 32).length := by rw [hs]; exact hi32
    have hib : i < (g.drop 32).length := by rw [hdrop]; exact hi32
    have hic : 32 + i < g.length := by omega
    rw [List.getD_eq_getElem _ _ hia, List.getD_eq_getElem _ _ hic]
    rw [List.getElem_take, List.getElem_drop]
  rw [h1]

lemma appendEvals_fst (evals : List (ℕ × ℚ)) (idx : ℕ) (accs : List ℚ) :
    (appendEvals evals idx accs).1
      = evals
        ++ (List.range accs.length).map (fun j => (idx + j, accs.getD j 0)) := by
  induction accs generalizing evals idx with
  | nil => simp [appendEvals]
  | cons a rest ih =>
    have hcons : appendEvals evals idx (a :: rest)
        = appendEvals (evals ++ [(idx, a)]) (idx + 1) rest := rfl
    rw [hcons, ih]
    rw [List.length_cons, List.range_succ_eq_map]
    simp only [List.map_cons, List.map_map, List.getD_cons_zero, Nat.add_zero,
      List.append_assoc, List.singleton_append]
    congr 1
    congr 1
    apply List.map_congr_left
    intro j _
    simp only [Function.comp_apply, List.getD_cons_succ]
    congr 1
    omega

/-- C6: for a dequeued batch tagged with starting global index `idx`, the
accuracy of sequence `j` is the fraction of the 32 continuation positions
at which the generated token (positions 32..63 of the 64-token generation)
exactly equals the true continuation token, and the appended records are
`(idx + j, accuracy_j)` in batch order, the global index incrementing by
one per sequence. -/
theorem C6_scorer_loop (trueConts gens : List (List ℕ))
    (evals : List (ℕ × ℚ)) (idx : ℕ)
    (hlen : trueConts.length = gens.length)
    (ht : ∀ t ∈ trueConts, t.length = 32)
    (hg : ∀ g ∈ gens, g.length = 64) :
    (∀ j, j < trueConts.length →
      (scoreBatch trueConts gens).getD j 0
        = specContinuationAccuracy (trueConts.getD j []) (gens.getD j [])) ∧
    (appendEvals evals idx (scoreBatch trueConts gens)).1
      = evals
        ++ (List.range (scoreBatch trueConts gens).length).map
            (fun j => (idx + j, (scoreBatch trueConts gens).getD j 0)) := by
  constructor
  · intro j hj
    rw [scoreBatch_getD trueConts gens j hj hlen]
    apply continuationAccuracy_eq_spec
    · have hjm : trueConts.getD j [] ∈ trueConts := by
        rw [List.getD_eq_getElem _ _ hj]
        exact List.getElem_mem _
      exact ht _ hjm
    · have hj2 : j < gens.length := hlen ▸ hj
      have hjm : gens.getD j [] ∈ gens := by
        rw [List.getD_eq_getElem _ _ hj2]
        exact List.getElem_mem _
      exact hg _ hjm
  · exact appendEvals_fst evals idx (scoreBatch trueConts gens)

/-- C6 witness: a batch of one sequence whose generation reproduces the true
continuation at every position scores accuracy `32/32` and is recorded at
global index `idx = 5`. -/
theorem C6_scorer_loop_witness :
    (scoreBatch [List.replicate 32 7] [List.replicate 64 7]).getD 0 0
      = specContinuationAccuracy (List.replicate 32 7) (List.replicate 64 7) ∧
    (appendEvals [] 5 (scoreBatch [List.replicate 32 7] [List.replicate 64 7])).1
      = []
        ++ (List.range
            (scoreBatch [List.replicate 32 7] [List.replicate 64 7]).length).map
            (fun j =>
              (5 + j,
               (scoreBatch [List.replicate 32 7]
                 [List.replicate 64 7]).getD j 0)) := by
  have h := C6_scorer_loop [List.replicate 32 7] [List.replicate 64 7] [] 5
    (by simp) (by simp) (by simp)
  refine ⟨?_, h.2⟩
  have := h.1 0 (by simp)
  simpa using this

/-! ## Output-collision pre-check

Embeds the validation in `parse_args`
(`convert_dataset_labeled_json.py`, lines 60-66):

  if (os.path.isdir(parsed.out_root)
      and len(set(os.listdir(parsed.out_root)).intersection(
        set(parsed.split))) > 0):
      raise ValueError(...)
-/

/-- Python `set(s)` for a string `s`: the set of its characters, which
compare against directory entries as one-character strings. -/
def charStrings (s : String) : List String :=
  s.toList.map (fun c => String.mk [c])

/-- The collision condition actually evaluated by `parse_args`.
`outRootIsDir` abstracts `os.path.isdir(out_root)` and `entries` abstracts
`os.listdir(out_root)`.  Because `set(parsed.split)` is the set of the
*characters* of the split string, the intersection is nonempty exactly when
some directory entry is a one-character string whose character occurs in
the split name. -/
def collisionCheckFires (outRootIsDir : Bool) (entries : List String)
    (split : String) : Bool :=
  outRootIsDir && entries.any (fun e => (charStrings split).contains e)

/-- Modelled from the spec: the intended pre-flight check
(`OutputCollisionError`) must fire whenever the output root already
contains an entry overlapping the requested split name — in particular an
entry equal to the split name itself. -/
def specCollisionFires (outRootIsDir : Bool) (entries : List String)
    (split : String) : Bool :=
  outRootIsDir && entries.contains split

/-- C2 (code bug): with `--split train` and an existing `out_root` already
containing an entry `"train"`, the intended check must fail the run, but
the evaluated condition intersects the entry set with the *characters* of
`"train"` and does not fire; it fires instead on an unrelated entry `"t"`. -/
theorem C2_collision_precheck_code_bug :
    collisionCheckFires true ["train"] "train" = false ∧
    specCollisionFires true ["train"] "train" = true ∧
    collisionCheckFires true ["t"] "train" = true := by
  refine ⟨?_, ?_, ?_⟩ <;> rfl

/-! ## score_to_label

Embeds `score_to_label` / `score_to_bucket` defined inside `main`
(`convert_dataset_labeled_json.py`, lines 272-292). -/

/-- `score_to_bucket`: scores strictly below the cutoff `5.6e-4` go to
bucket 1, all others (including a score equal to the cutoff) to bucket 0.
Scores are `ℚ` (IEEE doubles embed order-faithfully into `ℚ`) and `5.6e-4`
denotes `56 / 10^5`. -/
def score_to_bucket (score : ℚ) : ℕ :=
  if score < 56 / 100000 then 1 else 0

/-- `score_to_label`: index the registered sentinel pool
(`tokenizer.additional_special_tokens`, abstracted as the list of sentinel
token ids the spec treats as known) by the bucket.  Indexing out of range
(fewer than two registered sentinels) is the Python `IndexError`, modelled
as `none`. -/
def score_to_label (additional_special_tokens : List ℕ) (score : ℚ) :
    Option ℕ :=
  additional_special_tokens.get? (score_to_bucket score)

/-- C7: `score_to_label` is a pure two-bucket threshold classifier: it
returns the sentinel of bucket 1 when `score < 5.6e-4` and the sentinel of
bucket 0 otherwise (a score equal to the threshold falls in bucket 0); the
result depends only on the score and the registered sentinel ids. -/
theorem C7_score_to_label (sentinels : List ℕ) (score : ℚ) :
    (score < 56 / 100000 →
      score_to_label sentinels score = sentinels.get? 1) ∧
    (¬ score < 56 / 100000 →
      score_to_label sentinels score = sentinels.get? 0) ∧
    score_to_bucket score ≤ 1 := by
  refine ⟨?_, ?_, ?_⟩
  · intro h
    simp [score_to_label, score_to_bucket, h]
  · intro h
    simp [score_to_label, score_to_bucket, h]
  · unfold score_to_bucket
    split <;> omega

/-- C7 witness: with sentinel ids `[50277, 50278]`, a score of `10^-4`
(below the threshold) maps to the bucket-1 sentinel `50278` and the
threshold value itself maps to the bucket-0 sentinel `50277`. -/
theorem C7_score_to_label_witness :
    score_to_label [50277, 50278] (1 / 10000) = some 50278 ∧
    score_to_label [50277, 50278] (56 / 100000) = some 50277 := by
  constructor
  · have h := (C7_score_to_label [50277, 50278] (1 / 10000)).1 (by norm_num)
    simpa using h
  · have h := (C7_score_to_label [50277, 50278] (56 / 100000)).2.1 (by norm_num)
    simpa using h

/-! ## ConcatLabeledTokensDataset

Embeds `ConcatLabeledTokensDataset.__iter__`
(`convert_dataset_labeled_json.py`, lines 98-118).  The generator becomes a
state machine over the buffer; the unseeded `np.random.uniform()` draws
become an explicit stream `draws : ℕ → ℚ` consumed one value per sentence. -/

/-- One JSON-lines record: parallel lists of sentences and scores. -/
structure LabeledSample where
  sentences : List String
  scores : List ℚ
deriving DecidableEq, Repr

/-- The fields of `ConcatLabeledTokensDataset` the iterator reads: the
black-box tokenizer (text to `input_ids`, no truncation, no padding), the
injected `score_to_label` strategy (giving the sentinel token for a score),
`label_prob`, the boundary token lists `bos_tokens` / `eos_tokens` (the
tokenizer's encodings of `bos_text` / `eos_text`, possibly empty), the
window length `max_length`, and `should_wrap` (the negation of the
`no_wrap` flag). -/
structure ConcatConfig where
  tokenizer : String → List ℕ
  score_to_label : ℚ → ℕ
  label_prob : ℚ
  bos_tokens : List ℕ
  eos_tokens : List ℕ
  max_length : ℕ
  should_wrap : Bool

/-- The iterator state: the token buffer plus the position in the draw
stream. -/
structure ConcatState where
  buffer : List ℕ
  rng : ℕ
deriving DecidableEq, Repr

/-- The body of the inner sentence loop (lines 103-111): encode the
sentence, map its score to a label token, prepend the label when the
uniform draw is below `label_prob`, and append
`bos_tokens + iids + eos_tokens` to the buffer. -/
def processSentence (cfg : ConcatConfig) (draws : ℕ → ℚ) (st : ConcatState)
    (sent : String) (score : ℚ) : ConcatState :=
  let encoded := cfg.tokenizer sent
  let label_token := cfg.score_to_label score
  let iids :=
    if draws st.rng < cfg.label_prob then label_token :: encoded else encoded
  { buffer := st.buffer ++ cfg.bos_tokens ++ iids ++ cfg.eos_tokens
    rng := st.rng + 1 }

/-- The drain loop (lines 112-118): while the buffer holds at least
`max_length` ids, slice off the first `max_length` ids as a window; with
`should_wrap` the remainder stays in the buffer, otherwise the buffer is
reset to empty (so at most one window per drain pass).  The `0 <
maxLength` guard records that the source's `while` loop does not terminate
when `max_length = 0`; all claims below assume a positive window length. -/
def drainAux (maxLength : ℕ) (shouldWrap : Bool) :
    ℕ → List ℕ → List (List ℕ) × List ℕ
  | 0, buffer => ([], buffer)
  | fuel + 1, buffer =>
    if 0 < maxLength ∧ maxLength ≤ buffer.length then
      let window := buffer.take maxLength
      if shouldWrap then
        let rest := drainAux maxLength shouldWrap fuel (buffer.drop maxLength)
        (window :: rest.1, rest.2)
      else ([window], [])
    else ([], buffer)

/-- The drain loop as a function of the buffer.  Each iteration of the
`while` removes `max_length ≥ 1` ids (or empties the buffer outright in the
no-wrap branch), so `buffer.length` steps always suffice. -/
def drainBuffer (maxLength : ℕ) (shouldWrap : Bool) (buffer : List ℕ) :
    List (List ℕ) × List ℕ :=
  drainAux maxLength shouldWrap buffer.length buffer

/-- One iteration of the outer sample loop (lines 101-118): assert the
sentences/scores shape, run the sentence loop, then drain the buffer.  A
shape mismatch is the Python `AssertionError` (the spec's
`ShapeMismatchError`), modelled as `none`; it is raised before any
sentence of the sample is tokenized. -/
def processSample (cfg : ConcatConfig) (draws : ℕ → ℚ) (st : ConcatState)
    (sample : LabeledSample) : Option (List (List ℕ) × ConcatState) :=
  if sample.sentences.length = sample.scores.length then
    let st' := (sample.sentences.zip sample.scores).foldl
      (fun s p => processSentence cfg draws s p.1 p.2) st
    let drained := drainBuffer cfg.max_length cfg.should_wrap st'.buffer
    some (drained.1, { buffer := drained.2, rng := st'.rng })
  else none

/-- The whole iterator: fold the samples through `processSample`.  Returns
the windows yielded in order, the final state, and whether iteration
completed without a shape-mismatch failure (on failure, iteration stops;
windows already yielded stand).  Any final buffer shorter than
`max_length` is left unemitted, matching the generator returning at end of
input. -/
def runConcat (cfg : ConcatConfig) (draws : ℕ → ℚ) :
    List LabeledSample → ConcatState → List (List ℕ) × ConcatState × Bool
  | [], st => ([], st, true)
  | sample :: rest, st =>
    match processSample cfg draws st sample with
    | none => ([], st, false)
    | some (ws, st') =>
      let r := runConcat cfg draws rest st'
      (ws ++ r.1, r.2.1, r.2.2)

/-- The windows the dataset emits when iterated from a fresh buffer. -/
def emittedWindows (cfg : ConcatConfig) (draws : ℕ → ℚ)
    (samples : List LabeledSample) : List (List ℕ) :=
  (runConcat cfg draws samples ⟨[], 0⟩).1

/-- The ids one sentence contributes to the buffer:
`bos_tokens + iids + eos_tokens`, where `iids` carries the label token
exactly when the sentence's uniform draw is below `label_prob`. -/
def sentenceIds (cfg : ConcatConfig) (draws : ℕ → ℚ) (rng : ℕ)
    (sent : String) (score : ℚ) : List ℕ :=
  cfg.bos_tokens
    ++ (if draws rng < cfg.label_prob
        then cfg.score_to_label score :: cfg.tokenizer sent
        else cfg.tokenizer sent)
    ++ cfg.eos_tokens

/-- The ids appended to the buffer by one sample's (sentence, score) pairs,
starting at draw position `rng`. -/
def appendedIdsAux (cfg : ConcatConfig) (draws : ℕ → ℚ) :
    List (String × ℚ) → ℕ → List ℕ
  | [], _ => []
  | p :: ps, rng =>
    sentenceIds cfg draws rng p.1 p.2 ++ appendedIdsAux cfg draws ps (rng + 1)

/-- The ids appended to the buffer over a whole run, starting at draw
position `rng`. -/
def appendedIds (cfg : ConcatConfig) (draws : ℕ → ℚ) :
    List LabeledSample → ℕ → List ℕ
  | [], _ => []
  | s :: rest, rng =>
    appendedIdsAux cfg draws (s.sentences.zip s.scores) rng
      ++ appendedIds cfg draws rest
          (rng + (s.sentences.zip s.scores).length)

lemma drainAux_small (m : ℕ) (sw : Bool) (fuel : ℕ) (b : List ℕ)
    (h : ¬(0 < m ∧ m ≤ b.length)) : drainAux m sw fuel b = ([], b) := by
  cases fuel with
  | zero => rfl
  | succ fuel => simp [drainAux, h]

lemma drainAux_nowrap_big (m fuel : ℕ) (b : List ℕ) (hm : 0 < m)
    (hb : m ≤ b.length) (hf : 0 < fuel) :
    drainAux m false fuel b = ([b.take m], []) := by
  cases fuel with
  | zero => omega
  | succ fuel => simp [drainAux, hm, hb]

lemma drainAux_wrap_big (m fuel : ℕ) (b : List ℕ) (hm : 0 < m)
    (hb : m ≤ b.length) :
    drainAux m true (fuel + 1) b
      = (b.take m :: (drainAux m true fuel (b.drop m)).1,
         (drainAux m true fuel (b.drop m)).2) := by
  simp [drainAux, hm, hb]

/-- With wrap, draining splits the buffer exactly: the windows followed by
the leftover reassemble the buffer, and the leftover is shorter than
`max_length`. -/
lemma drainAux_wrap_spec (m : ℕ) (hm : 0 < m) :
    ∀ (fuel : ℕ) (b : List ℕ), b.length ≤ fuel →
      (drainAux m true fuel b).1.flatten ++ (drainAux m true fuel b).2 = b
      ∧ (drainAux m true fuel b).2.length < m := by
  intro fuel
  induction fuel with
  | zero =>
    intro b hb
    refine ⟨by simp [drainAux], ?_⟩
    simp only [drainAux]
    omega
  | succ fuel ih =>
    intro b hb
    by_cases h : m ≤ b.length
    · rw [drainAux_wrap_big m fuel b hm h]
      have hrec := ih (b.drop m) (by rw [List.length_drop]; omega)
      refine ⟨?_, hrec.2⟩
      simp only [List.flatten_cons, List.append_assoc]
      rw [hrec.1, List.take_append_drop]
    · rw [drainAux_small m true _ b (by omega)]
      refine ⟨by simp, by simpa using by omega⟩

/-- Every window the drain loop slices off has length exactly
`max_length`. -/
lemma drainAux_window_length (m : ℕ) (sw : Bool) :
    ∀ (fuel : ℕ) (b : List ℕ), ∀ w ∈ (drainAux m sw fuel b).1,
      w.length = m := by
  intro fuel
  induction fuel with
  | zero =>
    intro b w hw
    simp [drainAux] at hw
  | succ fuel ih =>
    intro b w hw
    by_cases h : 0 < m ∧ m ≤ b.length
    · cases sw with
      | false =>
        rw [drainAux_nowrap_big m _ b h.1 h.2 (by omega)] at hw
        simp only [List.mem_singleton] at hw
        rw [hw, List.length_take]
        omega
      | true =>
        rw [drainAux_wrap_big m fuel b h.1 h.2] at hw
        rcases List.mem_cons.mp hw with hw | hw
        · rw [hw, List.length_take]
          omega
        · exact ih (b.drop m) w hw
    · rw [drainAux_small m sw _ b h] at hw
      simp at hw

/-- Every id in a drained window, and every id in the leftover buffer,
comes from the buffer being drained. -/
lemma drainAux_mem (m : ℕ) (sw : Bool) :
    ∀ (fuel : ℕ) (b : List ℕ),
      (∀ w ∈ (drainAux m sw fuel b).1, ∀ x ∈ w, x ∈ b)
      ∧ (∀ x ∈ (drainAux m sw fuel b).2, x ∈ b) := by
  intro fuel
  induction fuel with
  | zero =>
    intro b
    exact ⟨by simp [drainAux], by simp [drainAux]⟩
  | succ fuel ih =>
    intro b
    by_cases h : 0 < m ∧ m ≤ b.length
    · cases sw with
      | false =>
        rw [drainAux_nowrap_big m _ b h.1 h.2 (by omega)]
        refine ⟨?_, by simp⟩
        intro w hw x hx
        simp only [List.mem_singleton] at hw
        exact List.take_subset m b (hw ▸ hx)
      | true =>
        rw [drainAux_wrap_big m fuel b h.1 h.2]
        constructor
        · intro w hw x hx
          rcases List.mem_cons.mp hw with hw | hw
          · exact List.take_subset m b (hw ▸ hx)
          · exact List.drop_subset m b ((ih (b.drop m)).1 w hw x hx)
        · intro x hx
          exact List.drop_subset m b ((ih (b.drop m)).2 x hx)
    · rw [drainAux_small m sw _ b h]
      exact ⟨by simp, fun x hx => hx⟩

lemma drainBuffer_wrap_spec (m : ℕ) (hm : 0 < m) (b : List ℕ) :
    (drainBuffer m true b).1.flatten ++ (drainBuffer m true b).2 = b
    ∧ (drainBuffer m true b).2.length < m :=
  drainAux_wrap_spec m hm b.length b le_rfl

/-- Running the sentence loop appends exactly the per-sentence
contributions and advances the draw position once per sentence. -/
lemma foldl_processSentence (cfg : ConcatConfig) (draws : ℕ → ℚ) :
    ∀ (pairs : List (String × ℚ)) (st : ConcatState),
      pairs.foldl (fun s p => processSentence cfg draws s p.1 p.2) st
        = ⟨st.buffer ++ appendedIdsAux cfg draws pairs st.rng,
           st.rng + pairs.length⟩ := by
  intro pairs
  induction pairs with
  | nil =>
    intro st
    cases st
    simp [appendedIdsAux]
  | cons p ps ih =>
    intro st
    cases st with
    | mk buf rng =>
      rw [List.foldl_cons, ih]
      simp only [processSentence, sentenceIds, appendedIdsAux,
        ConcatState.mk.injEq, List.length_cons]
      constructor
      · simp [List.append_assoc]
      · omega

/-- `processSample` on a shape-correct sample: drain the buffer extended by
the sample's contributions. -/
lemma processSample_ok (cfg : ConcatConfig) (draws : ℕ → ℚ)
    (st : ConcatState) (sample : LabeledSample)
    (h : sample.sentences.length = sample.scores.length) :
    processSample cfg draws st sample
      = some ((drainBuffer cfg.max_length cfg.should_wrap
            (st.buffer ++ appendedIdsAux cfg draws
              (sample.sentences.zip sample.scores) st.rng)).1,
          ⟨(drainBuffer cfg.max_length cfg.should_wrap
            (st.buffer ++ appendedIdsAux cfg draws
              (sample.sentences.zip sample.scores) st.rng)).2,
           st.rng + (sample.sentences.zip sample.scores).length⟩) := by
  unfold processSample
  rw [if_pos h, foldl_processSentence]

lemma runConcat_windows_length (cfg : ConcatConfig) (draws : ℕ → ℚ) :
    ∀ (samples : List LabeledSample) (st : ConcatState),
      ∀ w ∈ (runConcat cfg draws samples st).1, w.length = cfg.max_length := by
  intro samples
  induction samples with
  | nil =>
    intro st w hw
    simp [runConcat] at hw
  | cons sample rest ih =>
    intro st w hw
    by_cases h : sample.sentences.length = sample.scores.length
    · rw [runConcat] at hw
      rw [processSample_ok cfg draws st sample h] at hw
      simp only [List.mem_append] at hw
      rcases hw with hw | hw
      · exact drainAux_window_length cfg.max_length cfg.should_wrap _ _ w hw
      · exact ih _ w hw
    · rw [runConcat] at hw
      have : processSample cfg draws st sample = none := by
        unfold processSample
        rw [if_neg h]
      rw [this] at hw
      simp at hw

lemma runConcat_mem (cfg : ConcatConfig) (draws : ℕ → ℚ) :
    ∀ (samples : List LabeledSample) (st : ConcatState),
      ∀ w ∈ (runConcat cfg draws samples st).1, ∀ x ∈ w,
        x ∈ st.buffer ∨ x ∈ appendedIds cfg draws samples st.rng := by
  intro samples
  induction samples with
  | nil =>
    intro st w hw
    simp [runConcat] at hw
  | cons sample rest ih =>
    intro st w hw x hx
    by_cases h : sample.sentences.length = sample.scores.length
    · rw [runConcat, processSample_ok cfg draws st sample h] at hw
      simp only [List.mem_append] at hw
      have hsplit : ∀ y, y ∈ st.buffer ++ appendedIdsAux cfg draws
            (sample.sentences.zip sample.scores) st.rng →
          y ∈ st.buffer ∨ y ∈ appendedIds cfg draws (sample :: rest) st.rng := by
        intro y hy
        rcases List.mem_append.mp hy with hy | hy
        · exact Or.inl hy
        · refine Or.inr ?_
          rw [appendedIds]
          exact List.mem_append_left _ hy
      rcases hw with hw | hw
      · exact hsplit x ((drainAux_mem cfg.max_length cfg.should_wrap _ _).1 w hw x hx)
      · rcases ih _ w hw x hx with hleft | hright
        · exact hsplit x ((drainAux_mem cfg.max_length cfg.should_wrap _ _).2 x hleft)
        · refine Or.inr ?_
          rw [appendedIds]
          exact List.mem_append_right _ hright
    · rw [runConcat] at hw
      have hnone : processSample cfg draws st sample = none := by
        unfold processSample
        rw [if_neg h]
      rw [hnone] at hw
      simp at hw

/-- With wrap, a whole run splits the appended stream exactly: emitted
windows followed by the final leftover reassemble the initial buffer plus
everything appended, the leftover staying shorter than `max_length`. -/
lemma runConcat_wrap_spec (cfg : ConcatConfig) (draws : ℕ → ℚ)
    (hm : 0 < cfg.max_length) (hw : cfg.should_wrap = true) :
    ∀ (samples : List LabeledSample) (st : ConcatState),
      (∀ s ∈ samples, s.sentences.length = s.scores.length) →
      st.buffer.length < cfg.max_length →
      (runConcat cfg draws samples st).1.flatten
          ++ (runConcat cfg draws samples st).2.1.buffer
        = st.buffer ++ appendedIds cfg draws samples st.rng
      ∧ (runConcat cfg draws samples st).2.1.buffer.length < cfg.max_length
      ∧ (runConcat cfg draws samples st).2.2 = true := by
  intro samples
  induction samples with
  | nil =>
    intro st _ hb
    refine ⟨?_, hb, rfl⟩
    simp [runConcat, appendedIds]
  | cons sample rest ih =>
    intro st hshape hb
    have h := hshape sample (List.mem_cons_self _ _)
    rw [runConcat, processSample_ok cfg draws st sample h]
    dsimp only
    rw [hw]
    have hdrain := drainBuffer_wrap_spec cfg.max_length hm
      (st.buffer ++ appendedIdsAux cfg draws
        (sample.sentences.zip sample.scores) st.rng)
    have hrec := ih ⟨(drainBuffer cfg.max_length true
        (st.buffer ++ appendedIdsAux cfg draws
          (sample.sentences.zip sample.scores) st.rng)).2,
        st.rng + (sample.sentences.zip sample.scores).length⟩
      (fun s hs => hshape s (List.mem_cons_of_mem _ hs)) hdrain.2
    dsimp only at hrec
    refine ⟨?_, hrec.2.1, hrec.2.2⟩
    rw [List.flatten_append, List.append_assoc, hrec.1]
    simp only [appendedIds]
    rw [← List.append_assoc, hdrain.1, List.append_assoc]

lemma drainBuffer_nowrap_big (m : ℕ) (b : List ℕ) (hm : 0 < m)
    (hb : m ≤ b.length) : drainBuffer m false b = ([b.take m], []) :=
  drainAux_nowrap_big m b.length b hm hb (by omega)

/-- With `label_prob = 0` no draw can fall below the probability, so every
id appended to the buffer is a bos id, a tokenizer-output id, or an eos
id — never a prepended label. -/
lemma mem_appendedIdsAux_no_label (cfg : ConcatConfig) (draws : ℕ → ℚ)
    (h0 : cfg.label_prob = 0) (hd : ∀ i, 0 ≤ draws i) :
    ∀ (pairs : List (String × ℚ)) (rng : ℕ) (x : ℕ),
      x ∈ appendedIdsAux cfg draws pairs rng →
      x ∈ cfg.bos_tokens ∨ (∃ sent, x ∈ cfg.tokenizer sent)
        ∨ x ∈ cfg.eos_tokens := by
  intro pairs
  induction pairs with
  | nil =>
    intro rng x hx
    simp [appendedIdsAux] at hx
  | cons p ps ih =>
    intro rng x hx
    rw [appendedIdsAux] at hx
    rcases List.mem_append.mp hx with hx | hx
    · unfold sentenceIds at hx
      rw [h0, if_neg (not_lt.mpr (hd rng))] at hx
      rcases List.mem_append.mp hx with hx | hx
      · rcases List.mem_append.mp hx with hx | hx
        · exact Or.inl hx
        · exact Or.inr (Or.inl ⟨p.1, hx⟩)
      · exact Or.inr (Or.inr hx)
    · exact ih (rng + 1) x hx

lemma mem_appendedIds_no_label (cfg : ConcatConfig) (draws : ℕ → ℚ)
    (h0 : cfg.label_prob = 0) (hd : ∀ i, 0 ≤ draws i) :
    ∀ (samples : List LabeledSample) (rng : ℕ) (x : ℕ),
      x ∈ appendedIds cfg draws samples rng →
      x ∈ cfg.bos_tokens ∨ (∃ sent, x ∈ cfg.tokenizer sent)
        ∨ x ∈ cfg.eos_tokens := by
  intro samples
  induction samples with
  | nil =>
    intro rng x hx
    simp [appendedIds] at hx
  | cons s rest ih =>
    intro rng x hx
    rw [appendedIds] at hx
    rcases List.mem_append.mp hx with hx | hx
    · exact mem_appendedIdsAux_no_label cfg draws h0 hd _ rng x hx
    · exact ih _ x hx

/-- A toy tokenizer for concrete runs: every sentence encodes to
`[1, 2, 3]`. -/
def demoTokenizer : String → List ℕ := fun _ => [1, 2, 3]

/-- A constant draw stream at 0, a legal value of `np.random.uniform()`
(which samples the half-open interval `[0, 1)`). -/
def zeroDraws : ℕ → ℚ := fun _ => 0

/-- Window length 2, wrap enabled (`no_wrap` absent), `label_prob = 0`,
sentinel id 9, empty bos/eos. -/
def wrapCfg : ConcatConfig :=
  ⟨demoTokenizer, fun _ => 9, 0, [], [], 2, true⟩

/-- Window length 2, `no_wrap` set, `label_prob = 0`. -/
def noWrapCfg : ConcatConfig :=
  ⟨demoTokenizer, fun _ => 9, 0, [], [], 2, false⟩

/-- Window length 2, wrap enabled, `label_prob = 1`. -/
def labelCfg : ConcatConfig :=
  ⟨demoTokenizer, fun _ => 9, 1, [], [], 2, true⟩

/-- One sample with one (sentence, score) pair. -/
def demoSamples : List LabeledSample := [⟨[""], [0]⟩]

/-- C3: every window the concatenator emits contains exactly `max_length`
token ids — never fewer, never more — for every input sample sequence,
every draw stream and every wrap setting; in particular no partial
end-of-stream buffer is ever emitted as a window. -/
theorem C3_window_length_invariant (cfg : ConcatConfig) (draws : ℕ → ℚ)
    (samples : List LabeledSample) (w : List ℕ)
    (hw : w ∈ emittedWindows cfg draws samples) :
    w.length = cfg.max_length :=
  runConcat_windows_length cfg draws samples ⟨[], 0⟩ w hw

/-- C3 witness: the single sentence `[1, 2, 3]` with `max_length = 2`
emits the window `[1, 2]` (the tail `[3]` is not emitted) and that window
has length exactly `max_length`. -/
theorem C3_window_length_witness :
    ([1, 2] : List ℕ) ∈ emittedWindows wrapCfg zeroDraws demoSamples ∧
    ([1, 2] : List ℕ).length = wrapCfg.max_length :=
  ⟨by decide,
   C3_window_length_invariant wrapCfg zeroDraws demoSamples [1, 2] (by decide)⟩

lemma runConcat_stops_at_bad (cfg : ConcatConfig) (draws : ℕ → ℚ)
    (bad : LabeledSample) (post : List LabeledSample)
    (hbad : bad.sentences.length ≠ bad.scores.length) :
    ∀ (pre : List LabeledSample) (st : ConcatState),
      (∀ s ∈ pre, s.sentences.length = s.scores.length) →
      (runConcat cfg draws (pre ++ bad :: post) st).2.2 = false
      ∧ (runConcat cfg draws (pre ++ bad :: post) st).1
        = (runConcat cfg draws pre st).1 := by
  intro pre
  induction pre with
  | nil =>
    intro st _
    have hnone : processSample cfg draws st bad = none := by
      unfold processSample
      rw [if_neg hbad]
    have hstep : runConcat cfg draws (bad :: post) st = ([], st, false) := by
      rw [runConcat, hnone]
    rw [List.nil_append, hstep]
    exact ⟨rfl, rfl⟩
  | cons sample pre ih =>
    intro st hpre
    have h := hpre sample (List.mem_cons_self _ _)
    simp only [List.cons_append, runConcat]
    rw [processSample_ok cfg draws st sample h]
    dsimp only
    simp only [List.append_eq]
    have hrec := ih ⟨(drainBuffer cfg.max_length cfg.should_wrap
        (st.buffer ++ appendedIdsAux cfg draws
          (sample.sentences.zip sample.scores) st.rng)).2,
        st.rng + (sample.sentences.zip sample.scores).length⟩
      (fun s hs => hpre s (List.mem_cons_of_mem _ hs))
    exact ⟨hrec.1, by rw [hrec.2]⟩

/-- C9: a sample whose sentences and scores differ in length makes the
iterator fail with the shape assertion the moment the sample is reached —
before any of its sentences is tokenized — emitting no window derived from
it: the run aborts with exactly the windows produced by the samples before
it. -/
theorem C9_shape_mismatch (cfg : ConcatConfig) (draws : ℕ → ℚ)
    (pre post : List LabeledSample) (bad : LabeledSample) (st : ConcatState)
    (hpre : ∀ s ∈ pre, s.sentences.length = s.scores.length)
    (hbad : bad.sentences.length ≠ bad.scores.length) :
    (∀ s : ConcatState, processSample cfg draws s bad = none) ∧
    (runConcat cfg draws (pre ++ bad :: post) st).2.2 = false ∧
    (runConcat cfg draws (pre ++ bad :: post) st).1
      = (runConcat cfg draws pre st).1 := by
  have h := runConcat_stops_at_bad cfg draws bad post hbad pre st hpre
  refine ⟨?_, h.1, h.2⟩
  intro s
  unfold processSample
  rw [if_neg hbad]

/-- C9 witness: after one well-formed sample, a sample with one sentence
and no scores aborts the run; the windows are exactly those of the
well-formed part. -/
theorem C9_shape_mismatch_witness :
    processSample wrapCfg zeroDraws ⟨[], 0⟩ ⟨["a"], []⟩ = none ∧
    (runConcat wrapCfg zeroDraws (demoSamples ++ [⟨["a"], []⟩]) ⟨[], 0⟩).2.2
      = false ∧
    (runConcat wrapCfg zeroDraws (demoSamples ++ [⟨["a"], []⟩]) ⟨[], 0⟩).1
      = (runConcat wrapCfg zeroDraws demoSamples ⟨[], 0⟩).1 := by
  have h := C9_shape_mismatch wrapCfg zeroDraws demoSamples [] ⟨["a"], []⟩
    ⟨[], 0⟩ (by decide) (by decide)
  exact ⟨h.1 ⟨[], 0⟩, h.2.1, h.2.2⟩

/-- C4: the wrap policy.  With `no_wrap` (`should_wrap = false`), whenever
the buffer reaches `max_length` after a sample, exactly one window — the
first `max_length` ids — is emitted by the drain pass and the remainder is
discarded, so the next sample starts from an empty buffer.  With wrapping
(`should_wrap = true`), the emitted windows followed by the final leftover
reassemble every appended id in order, and the leftover (the only data not
emitted, the under-`max_length` tail at end of stream) is shorter than
`max_length`. -/
theorem C4_wrap_policy (cfg : ConcatConfig) (draws : ℕ → ℚ)
    (hm : 0 < cfg.max_length) :
    (cfg.should_wrap = false →
      ∀ (st : ConcatState) (sample : LabeledSample),
        sample.sentences.length = sample.scores.length →
        cfg.max_length ≤ (st.buffer ++ appendedIdsAux cfg draws
          (sample.sentences.zip sample.scores) st.rng).length →
        processSample cfg draws st sample
          = some ([(st.buffer ++ appendedIdsAux cfg draws
                (sample.sentences.zip sample.scores) st.rng).take
                cfg.max_length],
              ⟨[], st.rng + (sample.sentences.zip sample.scores).length⟩)) ∧
    (cfg.should_wrap = true →
      ∀ samples : List LabeledSample,
        (∀ s ∈ samples, s.sentences.length = s.scores.length) →
        (emittedWindows cfg draws samples).flatten
            ++ (runConcat cfg draws samples ⟨[], 0⟩).2.1.buffer
          = appendedIds cfg draws samples 0
        ∧ (runConcat cfg draws samples ⟨[], 0⟩).2.1.buffer.length
            < cfg.max_length) := by
  constructor
  · intro hnw st sample hshape hbig
    rw [processSample_ok cfg draws st sample hshape, hnw,
      drainBuffer_nowrap_big _ _ hm hbig]
  · intro hwrap samples hshape
    have h := runConcat_wrap_spec cfg draws hm hwrap samples ⟨[], 0⟩ hshape
      (by simpa using hm)
    refine ⟨?_, h.2.1⟩
    have h1 := h.1
    simp only [List.nil_append] at h1
    simpa [emittedWindows] using h1

/-- C4 witness: with `no_wrap`, the sentence `[1, 2, 3]` (buffer length 3,
`max_length = 2`) yields exactly the one window `[1, 2]` and an empty
carry-over buffer; with wrapping, windows plus leftover reassemble the
appended stream. -/
theorem C4_wrap_policy_witness :
    processSample noWrapCfg zeroDraws ⟨[], 0⟩ ⟨[""], [0]⟩
      = some ([[1, 2]], ⟨[], 1⟩) ∧
    (emittedWindows wrapCfg zeroDraws demoSamples).flatten
        ++ (runConcat wrapCfg zeroDraws demoSamples ⟨[], 0⟩).2.1.buffer
      = appendedIds wrapCfg zeroDraws demoSamples 0 := by
  constructor
  · have h := (C4_wrap_policy noWrapCfg zeroDraws (by decide)).1 rfl ⟨[], 0⟩
      ⟨[""], [0]⟩ (by decide) (by decide)
    exact h.trans (by decide)
  · exact ((C4_wrap_policy wrapCfg zeroDraws (by decide)).2 rfl demoSamples
      (by decide)).1

/-- C8: label injection at the probability extremes, for draw streams in
the range `[0, 1)` of `np.random.uniform()`.  With `label_prob = 1`, every
sentence's contribution to the buffer is its encoded ids prefixed — right
after the bos tokens — by the sentinel chosen for its score.  With
`label_prob = 0`, no sentinel is ever prepended, so (as long as sentinel
ids occur in no tokenizer output, bos or eos encoding) no emitted window
contains a sentinel id. -/
theorem C8_label_probability_extremes (cfg : ConcatConfig) (draws : ℕ → ℚ)
    (hd : ∀ i, 0 ≤ draws i ∧ draws i < 1) :
    (cfg.label_prob = 1 →
      ∀ (rng : ℕ) (sent : String) (score : ℚ),
        sentenceIds cfg draws rng sent score
          = cfg.bos_tokens
            ++ (cfg.score_to_label score :: cfg.tokenizer sent)
            ++ cfg.eos_tokens) ∧
    (cfg.label_prob = 0 →
      ∀ sentinelIds : ℕ → Prop,
        (∀ id, sentinelIds id →
          (∀ sent, id ∉ cfg.tokenizer sent) ∧ id ∉ cfg.bos_tokens
            ∧ id ∉ cfg.eos_tokens) →
        ∀ (samples : List LabeledSample) (w : List ℕ),
          w ∈ emittedWindows cfg draws samples →
          ∀ x ∈ w, ¬ sentinelIds x) := by
  constructor
  · intro h1 rng sent score
    unfold sentenceIds
    rw [if_pos (h1 ▸ (hd rng).2)]
  · intro h0 S hS samples w hw x hx hSx
    have hmem := runConcat_mem cfg draws samples ⟨[], 0⟩ w hw x hx
    rcases hmem with hin | hin
    · simp at hin
    · rcases mem_appendedIds_no_label cfg draws h0 (fun i => (hd i).1)
        samples 0 x hin with hb | ⟨sent, htok⟩ | he
      · exact (hS x hSx).2.1 hb
      · exact (hS x hSx).1 sent htok
      · exact (hS x hSx).2.2 he

/-- C8 witness: with `label_prob = 1` the sentence's ids are prefixed by
the sentinel 9 after the (empty) bos tokens; with `label_prob = 0` the id
9 never appears in the emitted window `[1, 2]`. -/
theorem C8_label_probability_witness :
    sentenceIds labelCfg zeroDraws 0 "" 0
      = labelCfg.bos_tokens
        ++ (labelCfg.score_to_label 0 :: labelCfg.tokenizer "")
        ++ labelCfg.eos_tokens ∧
    ¬ (1 : ℕ) = 9 := by
  have hd : ∀ i : ℕ, (0 : ℚ) ≤ zeroDraws i ∧ zeroDraws i < 1 :=
    fun i => ⟨le_refl 0, by norm_num [zeroDraws]⟩
  constructor
  · exact (C8_label_probability_extremes labelCfg zeroDraws hd).1 rfl 0 "" 0
  · exact (C8_label_probability_extremes wrapCfg zeroDraws hd).2 rfl
      (fun id => id = 9)
      (by
        intro id hid
        subst hid
        exact ⟨fun sent => (by decide : (9 : ℕ) ∉ [1, 2, 3]), by decide, by decide⟩)
      demoSamples [1, 2] (by decide) 1 (by decide)

end Pythia
